import Mathlib

/-!
Verification of the raw record decoding engine of the pyansys/pymapdl
cython core (binary_reader.cpp, reader.c).

Binary records are modelled as lists of 32-bit words (`List Nat`, each
entry `< 2^32`); text buffers are modelled as total memory functions
`Nat → Char` (a C `char *` pointer into memory), so reads past a
declared buffer length are visible as dependence on the memory beyond
it.  Numeric values are carried as raw bit patterns (`Nat`): the
decoders only move bit patterns around, so no floating-point
arithmetic is needed for the binary codecs.  The ASCII float parser of
`read_nblock` performs real arithmetic; it is modelled over `ℚ` with
exactly the arithmetic steps of the source (the control flow of the
source never branches on a floating value, so cursor movement and
store placement are independent of this choice).
-/

/-- Interpretation of a 32-bit word (stored as `Nat < 2^32`) as a signed
C `int`. -/
def wordToInt (w : Nat) : Int :=
  if w < 2 ^ 31 then (w : Int) else (w : Int) - 2 ^ 32

/-- The 32-bit word whose signed value is `-n` (two's complement); used to
build windowed-sparse payloads that store `-start` and `-len`. -/
def negWord (n : Nat) : Nat := (2 ^ 32 - n) % 2 ^ 32

/-- Reading one little-endian 64-bit value (a C `double` bit pattern) out of
two consecutive 32-bit words of a payload. -/
def readDouble (ws : List Nat) (c : Nat) : Nat :=
  ws.getD c 0 + 2 ^ 32 * ws.getD (c + 1) 0

/-- Reading `n` consecutive 64-bit values starting at word `c`. -/
def readDoubles (ws : List Nat) (c n : Nat) : List Nat :=
  (List.range n).map fun j => readDouble ws (c + 2 * j)

/-- Encoding of a 64-bit value as two little-endian 32-bit words. -/
def encDouble (v : Nat) : List Nat := [v % 2 ^ 32, v / 2 ^ 32]

/-- Reading the `j`-th 16-bit half-word of the word stream starting at word
`c` (little-endian x86 layout: the low half of a word comes first).  This is
what stepping a C `short *` over the payload does. -/
def shortAtFrom (ws : List Nat) (c j : Nat) : Nat :=
  let w := ws.getD (c + j / 2) 0
  if j % 2 = 0 then w % 2 ^ 16 else w / 2 ^ 16 % 2 ^ 16

/-- Reading `n` consecutive 16-bit values starting at word `c`. -/
def readShorts (ws : List Nat) (c n : Nat) : List Nat :=
  (List.range n).map (shortAtFrom ws c)

/-- The per-byte population count table `nbbitsperchar` of
binary_reader.cpp. -/
def nbbitsperchar : List Nat :=
  [0,1,1,2,1,2,2,3,1,2,2,3,2,3,3,4,1,2,2,3,2,3,3,4,2,3,3,4,
   3,4,4,5,1,2,2,3,2,3,3,4,2,3,3,4,3,4,4,5,2,3,3,4,3,4,4,5,
   3,4,4,5,4,5,5,6,1,2,2,3,2,3,3,4,2,3,3,4,3,4,4,5,2,3,3,4,
   3,4,4,5,3,4,4,5,4,5,5,6,2,3,3,4,3,4,4,5,3,4,4,5,4,5,5,6,
   3,4,4,5,4,5,5,6,4,5,5,6,5,6,6,7,1,2,2,3,2,3,3,4,2,3,3,4,
   3,4,4,5,2,3,3,4,3,4,4,5,3,4,4,5,4,5,5,6,2,3,3,4,3,4,4,5,
   3,4,4,5,4,5,5,6,3,4,4,5,4,5,5,6,4,5,5,6,5,6,6,7,2,3,3,4,
   3,4,4,5,3,4,4,5,4,5,5,6,3,4,4,5,4,5,5,6,4,5,5,6,5,6,6,7,
   3,4,4,5,4,5,5,6,4,5,5,6,5,6,6,7,4,5,5,6,5,6,6,7,5,6,6,7,6,7,7,8]

/-- Population count of a 32-bit value, summing the table over the four
little-endian bytes, exactly as `NbBitsOn` of binary_reader.cpp. -/
def NbBitsOn (iVal : Nat) : Nat :=
  nbbitsperchar.getD (iVal % 2 ^ 8) 0 +
  nbbitsperchar.getD (iVal / 2 ^ 8 % 2 ^ 8) 0 +
  nbbitsperchar.getD (iVal / 2 ^ 16 % 2 ^ 8) 0 +
  nbbitsperchar.getD (iVal / 2 ^ 24 % 2 ^ 8) 0

/-- The `while (++iloc < *size)` loop shared by every bitmask-sparse
decoder: walk bit positions `s, s+1, …` (`fuel` of them), emitting the next
packed value (`get tb`) when the bit is on and the type's zero otherwise.
`get` abstracts the packed-value stream `tbuf` of the concrete element
type. -/
def bsparseLoop (get : Nat → Nat) (bitcod : Nat) : Nat → Nat → Nat → List Nat
  | _, 0, _ => []
  | s, fuel + 1, tb =>
    if bitcod.testBit s then get tb :: bsparseLoop get bitcod (s + 1) fuel (tb + 1)
    else 0 :: bsparseLoop get bitcod (s + 1) fuel tb

/-- `ReadBsparseRecord` of binary_reader.cpp instantiated at a 4-byte
element type (`T = int` and `T = float` read one word per packed value, so
they coincide on bit patterns).  The payload starts with `size` and
`bitcod`; the packed stream starts at word 2.  Returns the dense vector and
the `*size` output. -/
def ReadBsparseRecordWord (ws : List Nat) : List Nat × Int :=
  let size := wordToInt (ws.getD 0 0)
  let bitcod := ws.getD 1 0
  (bsparseLoop (fun j => ws.getD (2 + j) 0) bitcod 0 size.toNat 0, size)

/-- `ReadBsparseRecord` of binary_reader.cpp instantiated at `T = double`:
each packed value occupies two words. -/
def ReadBsparseRecordDouble (ws : List Nat) : List Nat × Int :=
  let size := wordToInt (ws.getD 0 0)
  let bitcod := ws.getD 1 0
  (bsparseLoop (fun j => readDouble ws (2 + 2 * j)) bitcod 0 size.toNat 0, size)

/-- `ReadShortBsparseRecord` of binary_reader.cpp: packed values are 16-bit
half-words.  The population count `nb` (rounded up to even) is computed as
in the source and then never used. -/
def ReadShortBsparseRecord (ws : List Nat) : List Nat × Int :=
  let size := wordToInt (ws.getD 0 0)
  let bitcod := ws.getD 1 0
  let nb := NbBitsOn bitcod
  let nb2 := if nb % 2 = 1 then nb + 1 else nb
  let _ := nb2
  (bsparseLoop (shortAtFrom ws 2) bitcod 0 size.toNat 0, size)

/-- Modelled from the spec: the generic bitmask-sparse contract of §4.2,
"position `iloc` equals the next packed value if bit `iloc` of `bitcode` is
set, else the type's zero value", with `packed j` the `j`-th value of the
packed stream.  Used only to compare the short (int16) decoder against the
generic contract (claim about `ReadShortBsparseRecord`). -/
def bsparseContract (packed : Nat → Nat) (bitcode size : Nat) : List Nat :=
  (List.range size).map fun i =>
    if bitcode.testBit i then packed ((List.range i).countP bitcode.testBit) else 0

/-- Writing a list of raw values at consecutive indices `start, start+1, …`
(the `MEMCOPY` of a non-constant window). -/
def writeRun (vec : List Nat) (start : Nat) : List Nat → List Nat
  | [] => vec
  | v :: rest => writeRun (vec.set start v) (start + 1) rest

/-- The `do (*(adr++) = ValCst); while (--iLen > 0)` loop of a constant
window: write `v` at `k` consecutive indices (the caller passes
`k = max iLen 1`, since a do-while body runs at least once). -/
def writeConst (vec : List Nat) (start v : Nat) : Nat → List Nat
  | 0 => vec
  | k + 1 => writeConst (vec.set start v) (start + 1) v k

/-- Window loop of `ReadWindowedSparseBufferDouble` (and of the template
`ReadWindowedSparseBuffer` at `T = double`): `iShift = sizeof(double)/sizeof(int) = 2`
words per scalar value.  State: remaining window count, word cursor `c`,
output vector.  Returns the vector and the final cursor. -/
def wsLoopDouble (ws : List Nat) : Nat → Nat → List Nat → List Nat × Nat
  | 0, c, vec => (vec, c)
  | fuel + 1, c, vec =>
    let iLoc := wordToInt (ws.getD c 0)
    if 0 < iLoc then
      wsLoopDouble ws fuel (c + 3) (vec.set iLoc.toNat (readDouble ws (c + 1)))
    else
      let iLen := wordToInt (ws.getD (c + 1) 0)
      if 0 < iLen then
        wsLoopDouble ws fuel (c + 2 + 2 * iLen.toNat)
          (writeRun vec (-iLoc).toNat (readDoubles ws (c + 2) iLen.toNat))
      else
        wsLoopDouble ws fuel (c + 4)
          (writeConst vec (-iLoc).toNat (readDouble ws (c + 2)) (max (-iLen).toNat 1))

/-- Window loop of `ReadWindowedSparseBufferInt` / `ReadWindowedSparseBufferFloat`
(and of the template at `T = int` / `T = float`): one word per scalar value
(`iShift = 1`). -/
def wsLoopWord (ws : List Nat) : Nat → Nat → List Nat → List Nat × Nat
  | 0, c, vec => (vec, c)
  | fuel + 1, c, vec =>
    let iLoc := wordToInt (ws.getD c 0)
    if 0 < iLoc then
      wsLoopWord ws fuel (c + 2) (vec.set iLoc.toNat (ws.getD (c + 1) 0))
    else
      let iLen := wordToInt (ws.getD (c + 1) 0)
      if 0 < iLen then
        wsLoopWord ws fuel (c + 2 + iLen.toNat)
          (writeRun vec (-iLoc).toNat ((List.range iLen.toNat).map fun j => ws.getD (c + 2 + j) 0))
      else
        wsLoopWord ws fuel (c + 3)
          (writeConst vec (-iLoc).toNat (ws.getD (c + 2) 0) (max (-iLen).toNat 1))

/-- Window loop of `ReadWindowedSparseBufferShort` (and of the template at
`T = short`): the source computes `iShift = sizeof(short)/sizeof(int)`,
which is `0` in C integer arithmetic, so after reading a scalar the word
cursor does not advance (`raw += iShift` and `raw += iShift*iLen` move by
zero words); only the `iLoc`/`iLen` reads advance it.  A scalar read takes
the low 16-bit half of the word under the cursor. -/
def wsLoopShort (ws : List Nat) : Nat → Nat → List Nat → List Nat × Nat
  | 0, c, vec => (vec, c)
  | fuel + 1, c, vec =>
    let iLoc := wordToInt (ws.getD c 0)
    if 0 < iLoc then
      wsLoopShort ws fuel (c + 1) (vec.set iLoc.toNat (shortAtFrom ws (c + 1) 0))
    else
      let iLen := wordToInt (ws.getD (c + 1) 0)
      if 0 < iLen then
        wsLoopShort ws fuel (c + 2) (writeRun vec (-iLoc).toNat (readShorts ws (c + 2) iLen.toNat))
      else
        wsLoopShort ws fuel (c + 2)
          (writeConst vec (-iLoc).toNat (shortAtFrom ws (c + 2) 0) (max (-iLen).toNat 1))

/-- `ReadWindowedSparseBufferDouble` of binary_reader.cpp: read `size` and
the window count, zero a `size`-long vector, then run the window loop
(skipped when the count is not positive).  Returns the vector, the `*size`
output and the final word cursor. -/
def ReadWindowedSparseBufferDouble (ws : List Nat) : List Nat × Int × Nat :=
  let size := wordToInt (ws.getD 0 0)
  let NWin := wordToInt (ws.getD 1 0)
  let vec0 := List.replicate size.toNat 0
  if 0 < NWin then
    let r := wsLoopDouble ws NWin.toNat 2 vec0
    (r.1, size, r.2)
  else (vec0, size, 2)

/-- `ReadWindowedSparseBufferInt` / `ReadWindowedSparseBufferFloat` of
binary_reader.cpp (identical at the level of 32-bit bit patterns). -/
def ReadWindowedSparseBufferWord (ws : List Nat) : List Nat × Int × Nat :=
  let size := wordToInt (ws.getD 0 0)
  let NWin := wordToInt (ws.getD 1 0)
  let vec0 := List.replicate size.toNat 0
  if 0 < NWin then
    let r := wsLoopWord ws NWin.toNat 2 vec0
    (r.1, size, r.2)
  else (vec0, size, 2)

/-- `ReadWindowedSparseBufferShort` of binary_reader.cpp. -/
def ReadWindowedSparseBufferShort (ws : List Nat) : List Nat × Int × Nat :=
  let size := wordToInt (ws.getD 0 0)
  let NWin := wordToInt (ws.getD 1 0)
  let vec0 := List.replicate size.toNat 0
  if 0 < NWin then
    let r := wsLoopShort ws NWin.toNat 2 vec0
    (r.1, size, r.2)
  else (vec0, size, 2)

/-- Result of `read_record` of binary_reader.cpp: the decoded data, the
`*size` output, the `*out_bufsize` output, and the two flag outputs. -/
structure RecordResult where
  data : List Nat
  size : Int
  outBufsize : Int
  precFlag : Bool
  typeFlag : Bool
  deriving Repr, DecidableEq

/-- Flag dispatch shared by both entry points of binary_reader.cpp (the
bodies of lines 396–425 and 453–489 select the same decoder for the same
flag/type/precision combination): bitmask-sparse takes precedence over
windowed-sparse; when neither is set the payload is returned verbatim with
`*size` left at `bufsize`.  Returns the decoded data and the `*size`
output. -/
def recordDecode (bsparse wsparse typ prec : Bool) (raw : List Nat) (bufsize : Int) :
    List Nat × Int :=
  if bsparse then
    if typ then
      if prec then ReadShortBsparseRecord raw
      else ReadBsparseRecordWord raw
    else
      if prec then ReadBsparseRecordWord raw
      else ReadBsparseRecordDouble raw
  else if wsparse then
    if typ then
      if prec then
        let r := ReadWindowedSparseBufferShort raw
        (r.1, r.2.1)
      else
        let r := ReadWindowedSparseBufferWord raw
        (r.1, r.2.1)
    else
      if prec then
        let r := ReadWindowedSparseBufferWord raw
        (r.1, r.2.1)
      else
        let r := ReadWindowedSparseBufferDouble raw
        (r.1, r.2.1)
  else
    (raw, bufsize)

/-- `read_record` of binary_reader.cpp (allocate-and-decode entry point).
The file is a list of 32-bit words; `ptr` is the record position in word
units.  The header word pair gives `bufsize` (word 0, signed) and the flag
byte (byte 7 = top byte of word 1: bit 3 bitmask-sparse, bit 4
windowed-sparse, bit 6 precision, bit 7 integer type — bits 27, 28, 30, 31
of the word).  `*out_bufsize` is set to `bufsize + 3` before dispatch. -/
def read_record (file : List Nat) (ptr : Nat) : RecordResult :=
  let bufsize := wordToInt (file.getD ptr 0)
  let flags := file.getD (ptr + 1) 0
  let prec := flags.testBit 30
  let typ := flags.testBit 31
  let raw := (file.drop (ptr + 2)).take bufsize.toNat
  let d := recordDecode (flags.testBit 27) (flags.testBit 28) typ prec raw bufsize
  ⟨d.1, d.2, bufsize + 3, prec, typ⟩

/-- Result of `read_record_stream` of binary_reader.cpp: the caller buffer
after the call, the `*size` output and the two flag outputs.  This entry
point has no `out_bufsize` output. -/
structure StreamResult where
  arr : List Nat
  size : Int
  precFlag : Bool
  typeFlag : Bool
  deriving Repr, DecidableEq

/-- Overlay of a freshly decoded prefix on a caller-supplied buffer: the
decoders of the `...ToVec` family write the first `dec.length` entries of
`arr` and leave the rest alone. -/
def overlay (dec arr : List Nat) : List Nat := dec ++ arr.drop dec.length

/-- `read_record_stream` of binary_reader.cpp (fill-in-place entry point).
`loc` is the seek position in words; `arr` the caller-sized destination.
When `bufsize <= 0` the call is a no-op apart from the `*size` output.  The
`...ToVec` decoder variants run the same loops as the allocating ones on a
caller buffer, so they are modelled by the same decode functions overlaid
on `arr`. -/
def read_record_stream (file : List Nat) (loc : Nat) (arr : List Nat) : StreamResult :=
  let bufsize := wordToInt (file.getD loc 0)
  let flags := file.getD (loc + 1) 0
  let prec := flags.testBit 30
  let typ := flags.testBit 31
  if bufsize ≤ 0 then ⟨arr, bufsize, prec, typ⟩
  else
    let raw := (file.drop (loc + 2)).take bufsize.toNat
    let d := recordDecode (flags.testBit 27) (flags.testBit 28) typ prec raw bufsize
    ⟨overlay d.1 arr, d.2, prec, typ⟩

/-- Loop body of `fast_atoi` of reader.c: for each of `w` rounds, first
increment the cursor, then skip a blank or accumulate
`val = val*10 + (raw[i] - 48)`.  So a call starting at cursor `i` reads the
characters at positions `i+1 … i+w` and leaves the cursor at `i+w`. -/
def fastAtoiLoop (mem : Nat → Char) : Nat → Nat → Int → Int × Nat
  | 0, i, val => (val, i)
  | w + 1, i, val =>
    if mem (i + 1) = ' ' then fastAtoiLoop mem w (i + 1) val
    else fastAtoiLoop mem w (i + 1) (val * 10 + (((mem (i + 1)).toNat : Int) - 48))

/-- `fast_atoi` of reader.c. -/
def fast_atoi (mem : Nat → Char) (intsz : Nat) (i : Nat) : Int × Nat :=
  fastAtoiLoop mem intsz i 0

/-- Loop body of `fast_atoi2` of reader.c: for each of `w` rounds, read the
character under the cursor (skip blank or accumulate), then increment.  A
call starting at `i` reads positions `i … i+w-1` and leaves the cursor at
`i+w`. -/
def fastAtoi2Loop (mem : Nat → Char) : Nat → Nat → Int → Int × Nat
  | 0, i, val => (val, i)
  | w + 1, i, val =>
    if mem i = ' ' then fastAtoi2Loop mem w (i + 1) val
    else fastAtoi2Loop mem w (i + 1) (val * 10 + (((mem i).toNat : Int) - 48))

/-- `fast_atoi2` of reader.c. -/
def fast_atoi2 (mem : Nat → Char) (intsz : Nat) (i : Nat) : Int × Nat :=
  fastAtoi2Loop mem intsz i 0

/-- Loop body of `checkneg` of reader.c: scan `w` characters for a
minus sign, advancing the cursor by one per round. -/
def checknegLoop (mem : Nat → Char) : Nat → Nat → Bool → Bool × Nat
  | 0, i, found => (found, i)
  | w + 1, i, found =>
    checknegLoop mem w (i + 1) (found || (mem i = '-'))

/-- `checkneg` of reader.c. -/
def checkneg (mem : Nat → Char) (intsz : Nat) (i : Nat) : Bool × Nat :=
  checknegLoop mem intsz i false

/-- Fraction loop of the inline float parser of `read_nblock` (reader.c):
`nread` rounds of `++i; dvalue += (raw[i]-48)*pow; pow *= 0.1`.  Returns the
accumulated value and the final cursor. -/
def nbFracLoop (mem : Nat → Char) : Nat → Nat → ℚ → ℚ → ℚ × Nat
  | 0, i, _, acc => (acc, i)
  | j + 1, i, pow, acc =>
    nbFracLoop mem j (i + 1) (pow * (1 / 10))
      (acc + (((mem (i + 1)).toNat : ℚ) - 48) * pow)

/-- One fixed-width DOF field of `read_nblock`: sign character at `i`, first
digit at `i+1`, decimal point at `i+2`, `fltsz - 7` fraction digits, then
(after skipping the `E`) the exponent sign and two exponent digits.  Returns
the parsed value (ideal arithmetic over `ℚ`; the source computes the same
expression in `double`) and the cursor after the field (`i + fltsz` whenever
`7 ≤ fltsz`). -/
def nbField (mem : Nat → Char) (fltsz : Nat) (i : Nat) : ℚ × Nat :=
  let sign : ℚ := if mem i = '-' then -1 else 1
  let d0 : ℚ := ((mem (i + 1)).toNat : ℚ) - 48
  let nread := fltsz - 7
  let fr := nbFracLoop mem nread (i + 2) (1 / 10) d0
  let dvalue := fr.1 * sign
  let i4 := fr.2 + 2
  let esign := mem i4
  let dv1 : Int := ((mem (i4 + 1)).toNat : Int) - 48
  let dv2 : Int := ((mem (i4 + 2)).toNat : Int) - 48
  let ivalue : Int := 10 * dv1 + dv2
  let iEnd := i4 + 3
  if ivalue = 0 then (dvalue, iEnd)
  else
    let scale : ℚ := 10 ^ ivalue.toNat
    if esign = '+' then (dvalue * scale, iEnd) else (dvalue / scale, iEnd)

/-- The `for (t=0; t<7; ++t)` DOF-field loop of `read_nblock`: at each
round, if the character at `i + EOL - 1` is a newline the loop stops
(consuming the end-of-line), otherwise one field is parsed and stored at
flat slot `k*6 + t`.  Returns the node array, the cursor and the final
`t`. -/
def nbDofLoop (mem : Nat → Char) (fltsz EOL k : Nat) :
    Nat → Nat → Nat → List ℚ → List ℚ × Nat × Nat
  | 0, t, i, nodes => (nodes, i, t)
  | fuel + 1, t, i, nodes =>
    if mem (i + EOL - 1) = '\n' then (nodes, i + EOL, t)
    else
      let f := nbField mem fltsz i
      nbDofLoop mem fltsz EOL k fuel (t + 1) f.2 (nodes.set (k * 6 + t) f.1)

/-- The `for (j=t; j<6; ++j) nodes[k*6+j] = 0.0` zero-fill of
`read_nblock`, written with an explicit round count. -/
def nbZeroFillLoop (k : Nat) : Nat → Nat → List ℚ → List ℚ
  | 0, _, nodes => nodes
  | fuel + 1, j, nodes => nbZeroFillLoop k fuel (j + 1) (nodes.set (k * 6 + j) 0)

/-- Zero-fill of the DOF slots `t … 5` of record `k`. -/
def nbZeroFill (k t : Nat) (nodes : List ℚ) : List ℚ :=
  nbZeroFillLoop k (6 - t) t nodes

/-- Result of `read_nblock` of reader.c: the node numbers written (one per
record processed), the DOF array and the returned file position. -/
structure NbResult where
  nnum : List Int
  nodes : List ℚ
  pos : Nat
  deriving Repr, DecidableEq

/-- Record loop of `read_nblock`: for each of the `nnodes` requested
records, parse the node number with `fast_atoi2`, skip two integer fields,
run the DOF-field loop, and zero-fill the remaining DOF slots.  There is no
terminator probe of any kind in this loop. -/
def nbRecLoop (mem : Nat → Char) (intsz fltsz EOL : Nat) :
    Nat → Nat → Nat → List Int → List ℚ → NbResult
  | 0, _, i, nnum, nodes => ⟨nnum, nodes, i⟩
  | fuel + 1, k, i, nnum, nodes =>
    let a := fast_atoi2 mem intsz i
    let i2 := a.2 + intsz * 2
    let d := nbDofLoop mem fltsz EOL k 7 0 i2 nodes
    let nodes2 := nbZeroFill k d.2.2 d.1
    nbRecLoop mem intsz fltsz EOL fuel (k + 1) d.2.1 (nnum ++ [a.1]) nodes2

/-- `read_nblock` of reader.c: parse `nnodes` node records starting at file
position `n0`, writing node numbers and six DOF values per record, and
return the final file position. -/
def read_nblock (mem : Nat → Char) (nnodes intsz fltsz EOL n0 : Nat)
    (nodes0 : List ℚ) : NbResult :=
  nbRecLoop mem intsz fltsz EOL nnodes 0 n0 [] nodes0

/-- Node-id loop of `read_eblock` (reader.c): for each of the `nnode`
node fields, first skip an end-of-line if the character at `n + EOL` is a
newline, then parse one fixed-width integer (the source inlines a loop
identical to `fast_atoi`).  Returns the node ids in order and the final
cursor. -/
def ebNodeLoop (mem : Nat → Char) (intsz EOL : Nat) : Nat → Nat → List Int × Nat
  | 0, n => ([], n)
  | fuel + 1, n =>
    let n0 := if mem (n + EOL) = '\n' then n + EOL else n
    let a := fast_atoi mem intsz n0
    let r := ebNodeLoop mem intsz EOL fuel a.2
    (a.1 :: r.1, r.2)

/-- Result of `read_eblock` of reader.c: element type ids, real-constant
ids, element numbers, the 20-slot node rows, the returned element count and
the updated file position. -/
structure EbResult where
  etype : List Int
  e_rcon : List Int
  elemnum : List Int
  elem : List (List Int)
  count : Nat
  pos : Nat
  deriving Repr, DecidableEq

/-- Element loop of `read_eblock`: per element, skip an end-of-line if
present, probe the first field for a minus sign with `checkneg` (stopping
the whole decode if found), parse element type, real constant, skip five
fields, parse the node count, skip one field, parse the element number,
then read `nnode` node ids and set the remaining slots of the 20-slot row
to `-1`. -/
def ebElemLoop (mem : Nat → Char) (intsz EOL : Nat) :
    Nat → Nat → Nat → EbResult → EbResult
  | 0, _, n, acc => ⟨acc.etype, acc.e_rcon, acc.elemnum, acc.elem, acc.count, n⟩
  | fuel + 1, i, n, acc =>
    let n0 := if mem (n + EOL) = '\n' then n + EOL else n
    let ck := checkneg mem intsz n0
    if ck.1 then ⟨acc.etype, acc.e_rcon, acc.elemnum, acc.elem, i, ck.2⟩
    else
      let aT := fast_atoi mem intsz ck.2
      let aR := fast_atoi mem intsz aT.2
      let n4 := aR.2 + 5 * intsz
      let aN := fast_atoi mem intsz n4
      let n6 := aN.2 + intsz
      let aE := fast_atoi mem intsz n6
      let nd := ebNodeLoop mem intsz EOL aN.1.toNat aE.2
      let row := nd.1 ++ List.replicate (20 - nd.1.length) (-1 : Int)
      ebElemLoop mem intsz EOL fuel (i + 1) nd.2
        ⟨acc.etype ++ [aT.1], acc.e_rcon ++ [aR.1], acc.elemnum ++ [aE.1],
         acc.elem ++ [row], i + 1, nd.2⟩

/-- `read_eblock` of reader.c: parse up to `nelem` elements starting at
cursor `j0 - 1`, stopping early at a field containing a minus sign.
Returns the parsed element data, the element count actually parsed and the
updated cursor. -/
def read_eblock (mem : Nat → Char) (nelem intsz j0 EOL : Nat) : EbResult :=
  ebElemLoop mem intsz EOL nelem 0 (j0 - 1) ⟨[], [], [], [], 0, j0 - 1⟩

/-- Memory holding the characters of `s` from position 0 on and blanks
everywhere past the end (used only to build concrete test inputs). -/
def strMem (s : List Char) : Nat → Char := fun i => s.getD i ' '

/-- Description of one sparse window of a windowed record (float64 layout),
with values as 64-bit patterns. -/
inductive Window where
  | isolated (loc : Nat) (val : Nat)
  | run (start : Nat) (vals : List Nat)
  | constRun (start : Nat) (len : Nat) (val : Nat)
  deriving Repr, DecidableEq

/-- Wire encoding of one window for the float64 windowed-sparse format: an
isolated value stores its positive index then the value; a run stores
`-start`, the length and the raw values; a constant run stores `-start`,
`-len` and the single value. -/
def encWindow : Window → List Nat
  | .isolated loc v => loc :: encDouble v
  | .run start vals => negWord start :: vals.length :: vals.flatMap encDouble
  | .constRun start len v => negWord start :: negWord len :: encDouble v

/-- Full payload of a windowed-sparse record: `size`, the window count,
then the windows in order. -/
def encPayload (size : Nat) (l : List Window) : List Nat :=
  size :: l.length :: l.flatMap encWindow

/-- Well-formedness of a window for a record of length `size`: indices are
in bounds, an isolated index and a constant-run length are positive, a run
is non-empty, and values fit in 64 bits. -/
def winWF (size : Nat) : Window → Prop
  | .isolated loc v => 0 < loc ∧ loc < size ∧ v < 2 ^ 64
  | .run start vals => vals ≠ [] ∧ start + vals.length ≤ size ∧ ∀ v ∈ vals, v < 2 ^ 64
  | .constRun start len v => 0 < len ∧ start + len ≤ size ∧ v < 2 ^ 64

/-- The set of output indices a window covers. -/
def covers : Window → Nat → Prop
  | .isolated loc _, i => i = loc
  | .run start vals, i => start ≤ i ∧ i < start + vals.length
  | .constRun start len _, i => start ≤ i ∧ i < start + len

instance : ∀ (w : Window) (i : Nat), Decidable (covers w i) := by
  intro w i; cases w <;> simp only [covers] <;> infer_instance

/-- The value a window writes at a covered index. -/
def winValueAt : Window → Nat → Nat
  | .isolated _ v, _ => v
  | .run start vals, i => vals.getD (i - start) 0
  | .constRun _ _ v, _ => v

/-- The effect of one window on the output vector, as described by §4.3 of
the spec and matched against the decoder. -/
def applyWindow (vec : List Nat) : Window → List Nat
  | .isolated loc v => vec.set loc v
  | .run start vals => writeRun vec start vals
  | .constRun start len v => writeConst vec start v len

/-- Two windows are disjoint when no index is covered by both. -/
def winDisjoint (a b : Window) : Prop := ∀ i, ¬(covers a i ∧ covers b i)

/-! Helper lemmas about list access. -/

theorem getD_set_eq {α : Type} (l : List α) (i : Nat) (a d : α) (h : i < l.length) :
    (l.set i a).getD i d = a := by
  simp [List.getD_eq_getElem?_getD, List.getElem?_set_self h]

theorem getD_set_ne {α : Type} (l : List α) {i j : Nat} (h : i ≠ j) (a d : α) :
    (l.set i a).getD j d = l.getD j d := by
  simp [List.getD_eq_getElem?_getD, List.getElem?_set_ne h]

theorem getD_append_add {α : Type} (pre xs : List α) (k : Nat) (d : α) :
    (pre ++ xs).getD (pre.length + k) d = xs.getD k d := by
  simp [List.getD_eq_getElem?_getD, List.getElem?_append_right (Nat.le_add_right _ _)]

theorem getD_append_lt {α : Type} (pre xs : List α) (k : Nat) (d : α) (h : k < pre.length) :
    (pre ++ xs).getD k d = pre.getD k d := by
  simp [List.getD_eq_getElem?_getD, List.getElem?_append, h]

/-! Cursor and value behaviour of the fixed-width integer parsers
(claims about `fast_atoi` / `fast_atoi2` of reader.c). -/

theorem fastAtoiLoop_snd (mem : Nat → Char) :
    ∀ (w i : Nat) (val : Int), (fastAtoiLoop mem w i val).2 = i + w := by
  intro w
  induction w with
  | zero => intro i val; rfl
  | succ n ih =>
    intro i val
    simp only [fastAtoiLoop]
    split <;> rw [ih] <;> omega

theorem fastAtoi2Loop_snd (mem : Nat → Char) :
    ∀ (w i : Nat) (val : Int), (fastAtoi2Loop mem w i val).2 = i + w := by
  intro w
  induction w with
  | zero => intro i val; rfl
  | succ n ih =>
    intro i val
    simp only [fastAtoi2Loop]
    split <;> rw [ih] <;> omega

theorem fastAtoiLoop_fst_eq (mem : Nat → Char) :
    ∀ (w i : Nat) (val : Int),
      (fastAtoiLoop mem w i val).1 = (fastAtoi2Loop mem w (i + 1) val).1 := by
  intro w
  induction w with
  | zero => intro i val; rfl
  | succ n ih =>
    intro i val
    simp only [fastAtoiLoop, fastAtoi2Loop]
    split <;> rw [ih]

/-- C10: both fixed-width integer parsers advance the cursor by exactly the
field width, and `fast_atoi` started at cursor `p` accumulates the same
digits (positions `p+1 … p+w`, blanks skipped) as `fast_atoi2` started at
cursor `p+1`, so their values agree. -/
theorem c10_fast_atoi_equiv (mem : Nat → Char) (w p : Nat) :
    (fast_atoi mem w p).2 = p + w ∧ (fast_atoi2 mem w p).2 = p + w ∧
    (fast_atoi mem w p).1 = (fast_atoi2 mem w (p + 1)).1 :=
  ⟨fastAtoiLoop_snd mem w p 0, fastAtoi2Loop_snd mem w p 0, fastAtoiLoop_fst_eq mem w p 0⟩

theorem fastAtoi2Loop_congr (mem mem2 : Nat → Char) :
    ∀ (w i : Nat) (val : Int), (∀ k, i ≤ k → k < i + w → mem k = mem2 k) →
      fastAtoi2Loop mem w i val = fastAtoi2Loop mem2 w i val := by
  intro w
  induction w with
  | zero => intro i val _; rfl
  | succ n ih =>
    intro i val h
    have h0 : mem i = mem2 i := h i le_rfl (by omega)
    simp only [fastAtoi2Loop, h0]
    split <;> exact ih (i + 1) _ fun k hk1 hk2 => h k (by omega) (by omega)

/-- C9 (amended): the fixed-width parser performs no truncation check of
any kind: it unconditionally reads exactly the `w` characters at positions
`p … p+w-1` — whatever memory holds there — and returns a plain value with
no error channel.  In particular its result depends on memory past the end
of any shorter declared buffer (see the counterexample). -/
theorem c9_fast_atoi2_reads_full_width (mem mem2 : Nat → Char) (w p : Nat)
    (h : ∀ k, p ≤ k → k < p + w → mem k = mem2 k) :
    fast_atoi2 mem w p = fast_atoi2 mem2 w p :=
  fastAtoi2Loop_congr mem mem2 w p 0 h

theorem c9_fast_atoi2_reads_full_width_witness :
    (∀ k, 2 ≤ k → k < 2 + 3 → (fun i => if i < 9 then '7' else '1') k =
      (fun i => if i ≤ 8 then '7' else '2') k) ∧
    fast_atoi2 (fun i => if i < 9 then '7' else '1') 3 2 =
      fast_atoi2 (fun i => if i ≤ 8 then '7' else '2') 3 2 :=
  ⟨fun k hk1 hk2 => by interval_cases k <;> rfl,
   c9_fast_atoi2_reads_full_width _ _ 3 2 (fun k hk1 hk2 => by interval_cases k <;> rfl)⟩

/-- C9 counterexample: two memories that agree on the whole of a 1-character
buffer but differ past its end give different parsed values for a width-2
field starting at 0: the decode does not detect the truncation, accesses
index 1 (past the end) and infers a value from it. -/
theorem c9_counterexample :
    (∀ i, i < 1 → (fun i => if i = 0 then '1' else '0') i =
      (fun i => if i = 0 then '1' else '5') i) ∧
    (fast_atoi2 (fun i => if i = 0 then '1' else '0') 2 0).1 ≠
      (fast_atoi2 (fun i => if i = 0 then '1' else '5') 2 0).1 := by
  constructor
  · intro i hi
    interval_cases i
    rfl
  · decide

/-! Dispatcher claims. -/

/-- C5 (amended): the allocate-and-decode entry point `read_record` reports
`out_bufsize = bufsize + 3` (2-word header plus 1-word footer) for every
record; the fill-in-place entry point `read_record_stream` has no such
output (its only size-like output is `*size`, see the counterexample). -/
theorem c5_read_record_out_word_count (file : List Nat) (ptr : Nat) :
    (read_record file ptr).outBufsize = wordToInt (file.getD ptr 0) + 3 := rfl

/-- C5 counterexample: on a plain dense record with `bufsize = 2`
(payload `[10, 20]`, no sparse flag), the fill-in-place entry point
reports `*size = 2`, not `bufsize + 3 = 5`: it does not report an output
word count of `buffer_size + 3`. -/
theorem c5_stream_counterexample :
    (read_record_stream [2, 0, 10, 20, 99] 0 [7, 7, 7, 7]).size = 2 ∧
    (read_record_stream [2, 0, 10, 20, 99] 0 [7, 7, 7, 7]).size ≠
      wordToInt (([2, 0, 10, 20, 99] : List Nat).getD 0 0) + 3 := by
  constructor <;> decide

/-- C4 (code bug): in the short (int16) windowed decoder the word stride is
`sizeof(short)/sizeof(int) = 0`, not one word: after reading the isolated
value stored in word 3 of the payload `[3, 2, 1, 2, 2, 7]`, the cursor does
not move past that word, so the second window's `iLoc` is re-read from the
value word just consumed and the decode yields `[0, 2, 2]` with final
cursor 4, instead of the `[0, 2, 7]` (final cursor 6) that a one-word
stride would produce. -/
theorem c4_short_stride_is_zero :
    ReadWindowedSparseBufferShort [3, 2, 1, 2, 2, 7] = ([0, 2, 2], 3, 4) ∧
    (ReadWindowedSparseBufferShort [3, 2, 1, 2, 2, 7]).1 ≠ [0, 2, 7] := by
  constructor <;> decide

/-! NBLOCK claims. -/

theorem nbRecLoop_nnum_length (mem : Nat → Char) (intsz fltsz EOL : Nat) :
    ∀ (fuel k i : Nat) (nnum : List Int) (nodes : List ℚ),
      (nbRecLoop mem intsz fltsz EOL fuel k i nnum nodes).nnum.length =
        nnum.length + fuel := by
  intro fuel
  induction fuel with
  | zero => intro k i nnum nodes; rfl
  | succ n ih =>
    intro k i nnum nodes
    simp only [nbRecLoop]
    rw [ih]
    simp
    omega

/-- C3 (amended): `read_nblock` contains no terminator probe at all: it
parses exactly the requested number of records whatever the buffer holds (a
line beginning with `-` is consumed as ordinary record data), and its
return value is the final file position, not a parsed count. -/
theorem c3_nblock_parses_exactly_n (mem : Nat → Char) (nnodes intsz fltsz EOL n0 : Nat)
    (nodes0 : List ℚ) :
    (read_nblock mem nnodes intsz fltsz EOL n0 nodes0).nnum.length = nnodes := by
  unfold read_nblock
  rw [nbRecLoop_nnum_length]
  simp

/-- C3 counterexample: with `n = 2` requested and the second line being the
block terminator `" -1"`, `read_nblock` does not stop: it parses two full
records, reading the node "number" `-29` off the terminator line (the `-`
is accumulated as the digit value `45 - 48 = -3`), so the count of parsed
records is 2, not strictly less than 2. -/
theorem c3_counterexample :
    (read_nblock (strMem "  1      \n -1      \n".toList) 2 3 7 1 0
      (List.replicate 12 99)).nnum = [1, -29] ∧
    ¬ (read_nblock (strMem "  1      \n -1      \n".toList) 2 3 7 1 0
      (List.replicate 12 99)).nnum.length < 2 := by
  constructor <;> decide

/-! Bitmask-sparse claims. -/

theorem wordToInt_small {n : Nat} (h : n < 2 ^ 31) : wordToInt n = n := by
  unfold wordToInt
  rw [if_pos h]

theorem bsparseLoop_length (get : Nat → Nat) (bitcod : Nat) :
    ∀ (fuel s tb : Nat), (bsparseLoop get bitcod s fuel tb).length = fuel := by
  intro fuel
  induction fuel with
  | zero => intro s tb; rfl
  | succ n ih =>
    intro s tb
    simp only [bsparseLoop]
    split <;> simp [ih]

theorem bsparseLoop_getD (get : Nat → Nat) (bitcod : Nat) :
    ∀ (fuel i s tb : Nat), i < fuel →
      (bsparseLoop get bitcod s fuel tb).getD i 0 =
        if bitcod.testBit (s + i) then
          get (tb + (List.range' s i).countP bitcod.testBit)
        else 0 := by
  intro fuel
  induction fuel with
  | zero => omega
  | succ n ih =>
    intro i s tb hi
    match i with
    | 0 =>
      simp only [bsparseLoop]
      split <;> simp_all
    | i + 1 =>
      have hcount : (List.range' s (i + 1)).countP bitcod.testBit =
          (List.range' (s + 1) i).countP bitcod.testBit +
            (if bitcod.testBit s then 1 else 0) := by
        rw [List.range'_succ, List.countP_cons]
      have hs : s + 1 + i = s + (i + 1) := by omega
      by_cases hbit : bitcod.testBit s
      · have harg : tb + 1 + (List.range' (s + 1) i).countP bitcod.testBit =
            tb + (List.range' s (i + 1)).countP bitcod.testBit := by
          rw [hcount, if_pos hbit]
          omega
        simp only [bsparseLoop]
        rw [if_pos hbit, List.getD_cons_succ, ih i (s + 1) (tb + 1) (by omega), hs, harg]
      · have harg : tb + (List.range' (s + 1) i).countP bitcod.testBit =
            tb + (List.range' s (i + 1)).countP bitcod.testBit := by
          rw [hcount, if_neg hbit]
          omega
        simp only [bsparseLoop]
        rw [if_neg hbit, List.getD_cons_succ, ih i (s + 1) tb (by omega), hs, harg]

/-- C2: decoding a bitmask-sparse payload `size :: bitcode :: packed` with
`size ∈ [1, 32]` yields a dense vector of length `size` in which position
`i` holds the next packed value (the one at index "number of set bits of
`bitcode` below `i`") when bit `i` of `bitcode` is set, and the type's zero
otherwise; in particular `size = 4, bitcode = 0b0101, packed = [7, 9]`
decodes to `[7, 0, 9, 0]` (Scenario A). -/
theorem c2_bsparse_decode (size bitcode : Nat) (packed : List Nat)
    (h1 : 1 ≤ size) (h2 : size ≤ 32) (hb : bitcode < 2 ^ 32) :
    (ReadBsparseRecordWord (size :: bitcode :: packed)).1.length = size ∧
    (ReadBsparseRecordWord (size :: bitcode :: packed)).2 = size ∧
    (∀ i, i < size →
      (ReadBsparseRecordWord (size :: bitcode :: packed)).1.getD i 0 =
        if bitcode.testBit i then
          packed.getD ((List.range i).countP bitcode.testBit) 0
        else 0) ∧
    (ReadBsparseRecordWord [4, 5, 7, 9]).1 = [7, 0, 9, 0] := by
  have hw : wordToInt size = (size : Int) := wordToInt_small (by omega)
  have hbit : (size :: bitcode :: packed).getD 1 0 = bitcode := rfl
  refine ⟨?_, ?_, ?_, by decide⟩
  · simp [ReadBsparseRecordWord, hw, bsparseLoop_length]
  · simp [ReadBsparseRecordWord, hw]
  · intro i hi
    simp only [ReadBsparseRecordWord, hbit, List.getD_cons_zero, hw, Int.toNat_natCast]
    rw [bsparseLoop_getD _ _ size i 0 0 hi]
    simp only [Nat.zero_add, ← List.range_eq_range']
    split <;> [skip; rfl]
    show (size :: bitcode :: packed).getD (2 + _) 0 = _
    have h2j : ∀ j : Nat, 2 + j = j + 1 + 1 := by omega
    rw [h2j, List.getD_cons_succ, List.getD_cons_succ]

theorem c2_bsparse_decode_witness :
    (1 ≤ 4 ∧ 4 ≤ 32 ∧ 5 < 2 ^ 32) ∧
    (ReadBsparseRecordWord (4 :: 5 :: [7, 9])).1.getD 2 0 =
      (if Nat.testBit 5 2 then ([7, 9] : List Nat).getD
        ((List.range 2).countP (Nat.testBit 5)) 0 else 0) :=
  ⟨⟨by decide, by decide, by decide⟩,
   (c2_bsparse_decode 4 5 [7, 9] (by decide) (by decide) (by decide)).2.2.1 2 (by decide)⟩

/-- C8: the short (int16) bitmask decoder produces exactly the generic
bitmask contract instantiated at the 16-bit packed stream: same length,
same value at every position as the generic bit-by-bit decode.  The
population count `nb` (and its round-up to even) computed by
`ReadShortBsparseRecord` has no effect on the decoded dense vector: the
result is fully determined by `size`, `bitcode` and the half-word
stream. -/
theorem bsparseContract_getD (packed : Nat → Nat) (bitcode n i : Nat) (hi : i < n) :
    (bsparseContract packed bitcode n).getD i 0 =
      if bitcode.testBit i then packed ((List.range i).countP bitcode.testBit) else 0 := by
  simp only [bsparseContract, List.getD_eq_getElem?_getD, List.getElem?_map,
    List.getElem?_range hi, Option.map_some]
  rfl

theorem c8_short_matches_generic_contract (ws : List Nat)
    (hsz : (wordToInt (ws.getD 0 0)).toNat ≤ 32) :
    (ReadShortBsparseRecord ws).1 =
      bsparseContract (shortAtFrom ws 2) (ws.getD 1 0) (wordToInt (ws.getD 0 0)).toNat := by
  apply List.ext_getElem
  · simp [ReadShortBsparseRecord, bsparseContract, bsparseLoop_length]
  · intro i h1 h2
    have hi : i < (wordToInt (ws.getD 0 0)).toNat := by
      simpa [ReadShortBsparseRecord, bsparseLoop_length] using h1
    rw [← List.getD_eq_getElem _ 0, ← List.getD_eq_getElem _ 0,
      bsparseContract_getD _ _ _ i hi]
    simp only [ReadShortBsparseRecord]
    rw [bsparseLoop_getD _ _ _ i 0 0 hi]
    simp only [Nat.zero_add, ← List.range_eq_range']

theorem c8_short_matches_generic_contract_witness :
    (wordToInt (([4, 5, 589831] : List Nat).getD 0 0)).toNat ≤ 32 ∧
    (ReadShortBsparseRecord [4, 5, 589831]).1 =
      bsparseContract (shortAtFrom [4, 5, 589831] 2) (([4, 5, 589831] : List Nat).getD 1 0)
        (wordToInt (([4, 5, 589831] : List Nat).getD 0 0)).toNat :=
  ⟨by decide, c8_short_matches_generic_contract [4, 5, 589831] (by decide)⟩

/-! EBLOCK claims. -/

theorem ebNodeLoop_length (mem : Nat → Char) (intsz EOL : Nat) :
    ∀ (fuel n : Nat), (ebNodeLoop mem intsz EOL fuel n).1.length = fuel := by
  intro fuel
  induction fuel with
  | zero => intro n; rfl
  | succ m ih =>
    intro n
    simp only [ebNodeLoop]
    simp [ih]

theorem ebElemLoop_rows (mem : Nat → Char) (intsz EOL : Nat)
    (P : List Int → Prop)
    (hrow : ∀ vals : List Int, P (vals ++ List.replicate (20 - vals.length) (-1))) :
    ∀ (fuel i n : Nat) (acc : EbResult), (∀ r ∈ acc.elem, P r) →
      ∀ r ∈ (ebElemLoop mem intsz EOL fuel i n acc).elem, P r := by
  intro fuel
  induction fuel with
  | zero => intro i n acc hacc r hr; exact hacc r hr
  | succ m ih =>
    intro i n acc hacc r
    simp only [ebElemLoop]
    split
    all_goals
      split
      · exact fun hr => hacc r hr
      · intro hr
        refine ih _ _ _ ?_ r hr
        intro s hs
        rcases List.mem_append.mp hs with h | h
        · exact hacc s h
        · rcases List.mem_singleton.mp h with rfl
          exact hrow _

theorem getD_replicate_lt {α : Type} (m k : Nat) (x d : α) (h : k < m) :
    (List.replicate m x).getD k d = x := by
  simp [List.getD_eq_getElem?_getD, List.getElem?_replicate, h]

theorem rowShapeFacts (vals : List Int) (hle : vals.length ≤ 20) :
    (vals ++ List.replicate (20 - vals.length) (-1 : Int)).length = 20 ∧
    (vals ++ List.replicate (20 - vals.length) (-1 : Int)).take vals.length = vals ∧
    ∀ c, vals.length ≤ c → c < 20 →
      (vals ++ List.replicate (20 - vals.length) (-1 : Int)).getD c 0 = -1 := by
  refine ⟨by simp; omega, List.take_left vals _, ?_⟩
  intro c hc1 hc2
  have hsplit : c = vals.length + (c - vals.length) := by omega
  rw [hsplit, getD_append_add]
  exact getD_replicate_lt _ _ _ _ (by omega)

/-- C6 (amended): `read_eblock` fills the slots of every 20-slot node row
beyond the parsed node count with the sentinel `-1`, for every element
regardless of its node count — there is no branch padding quadratic
elements (node counts 11–19) with `0`.  Each row consists of exactly the
parsed node ids (one per node count, first conjunct) followed by `-1`
sentinels. -/
theorem c6_eblock_fill (mem : Nat → Char) (nelem intsz j0 EOL : Nat) :
    (∀ m n, (ebNodeLoop mem intsz EOL m n).1.length = m) ∧
    ∀ r ∈ (read_eblock mem nelem intsz j0 EOL).elem,
      ∃ vals : List Int, r = vals ++ List.replicate (20 - vals.length) (-1) ∧
        (vals.length ≤ 20 →
          r.length = 20 ∧ r.take vals.length = vals ∧
          ∀ c, vals.length ≤ c → c < 20 → r.getD c 0 = -1) := by
  constructor
  · exact fun m n => ebNodeLoop_length mem intsz EOL m n
  · intro r hr
    have key := ebElemLoop_rows mem intsz EOL
      (fun s => ∃ vals : List Int, s = vals ++ List.replicate (20 - vals.length) (-1))
      (fun vals => ⟨vals, rfl⟩) nelem 0 (j0 - 1) ⟨[], [], [], [], 0, j0 - 1⟩
      (by intro s hs; simp at hs) r hr
    obtain ⟨vals, hv⟩ := key
    refine ⟨vals, hv, fun hle => ?_⟩
    rw [hv]
    exact rowShapeFacts vals hle

theorem c6_eblock_fill_witness :
    [1, 2, 3, 4, 5, 6, 7, 8, -1, -1, -1, -1, -1, -1, -1, -1, -1, -1, -1, -1] ∈
      (read_eblock (strMem (" 1 " ++ "42" ++ " 7" ++ "          " ++ " 8" ++ "  " ++ "99"
        ++ " 1 2 3 4 5 6 7 8").toList) 1 2 1 1).elem ∧
    ∃ vals : List Int,
      ([1, 2, 3, 4, 5, 6, 7, 8, -1, -1, -1, -1, -1, -1, -1, -1, -1, -1, -1, -1] : List Int) =
        vals ++ List.replicate (20 - vals.length) (-1) ∧
      (vals.length ≤ 20 →
        ([1, 2, 3, 4, 5, 6, 7, 8, -1, -1, -1, -1, -1, -1, -1, -1, -1, -1, -1, -1] :
          List Int).length = 20 ∧
        ([1, 2, 3, 4, 5, 6, 7, 8, -1, -1, -1, -1, -1, -1, -1, -1, -1, -1, -1, -1] :
          List Int).take vals.length = vals ∧
        ∀ c, vals.length ≤ c → c < 20 →
          ([1, 2, 3, 4, 5, 6, 7, 8, -1, -1, -1, -1, -1, -1, -1, -1, -1, -1, -1, -1] :
            List Int).getD c 0 = -1) :=
  ⟨by decide,
   (c6_eblock_fill (strMem (" 1 " ++ "42" ++ " 7" ++ "          " ++ " 8" ++ "  " ++ "99"
     ++ " 1 2 3 4 5 6 7 8").toList) 1 2 1 1).2 _ (by decide)⟩

/-- C6 counterexample: an element whose parsed node count is 12 (between 11
and 19): the slots beyond the 12 node ids hold the sentinel `-1`, not the
`0` padding the claim asserts for quadratic node counts. -/
theorem c6_counterexample :
    (read_eblock (strMem (" 1 " ++ "42" ++ " 7" ++ "          " ++ "12" ++ "  " ++ "99"
        ++ " 1 2 3 4 5 6 7 8 9101112").toList) 1 2 1 1).elem =
      [[1, 2, 3, 4, 5, 6, 7, 8, 9, 10, 11, 12, -1, -1, -1, -1, -1, -1, -1, -1]] ∧
    ((read_eblock (strMem (" 1 " ++ "42" ++ " 7" ++ "          " ++ "12" ++ "  " ++ "99"
        ++ " 1 2 3 4 5 6 7 8 9101112").toList) 1 2 1 1).elem.getD 0 []).getD 12 0 ≠ 0 := by
  constructor <;> decide

theorem fast_atoi2_snd (mem : Nat → Char) (w i : Nat) :
    (fast_atoi2 mem w i).2 = i + w := fastAtoi2Loop_snd mem w i 0

theorem nbFracLoop_snd (mem : Nat → Char) :
    ∀ (n i : Nat) (pow acc : ℚ), (nbFracLoop mem n i pow acc).2 = i + n := by
  intro n
  induction n with
  | zero => intro i pow acc; rfl
  | succ m ih =>
    intro i pow acc
    simp only [nbFracLoop]
    rw [ih]
    omega

theorem nbField_snd (mem : Nat → Char) (fltsz i : Nat) (h : 7 ≤ fltsz) :
    (nbField mem fltsz i).2 = i + fltsz := by
  unfold nbField
  simp only [nbFracLoop_snd]
  split
  · show i + 2 + (fltsz - 7) + 2 + 3 = i + fltsz
    omega
  · split <;>
    · show i + 2 + (fltsz - 7) + 2 + 3 = i + fltsz
      omega

theorem nbDofLoop_spec (mem : Nat → Char) (fltsz EOL k : Nat) (hf : 7 ≤ fltsz) :
    ∀ (d fuel t i : Nat) (nodes : List ℚ), d < fuel →
      mem (i + d * fltsz + EOL - 1) = '\n' →
      (∀ s, s < d → mem (i + s * fltsz + EOL - 1) ≠ '\n') →
      (nbDofLoop mem fltsz EOL k fuel t i nodes).2.2 = t + d ∧
      (nbDofLoop mem fltsz EOL k fuel t i nodes).2.1 = i + d * fltsz + EOL ∧
      (nbDofLoop mem fltsz EOL k fuel t i nodes).1.length = nodes.length ∧
      (∀ s, s < d → k * 6 + t + s < nodes.length →
        (nbDofLoop mem fltsz EOL k fuel t i nodes).1.getD (k * 6 + t + s) 0 =
          (nbField mem fltsz (i + s * fltsz)).1) ∧
      (∀ idx, idx < k * 6 + t ∨ k * 6 + t + d ≤ idx →
        (nbDofLoop mem fltsz EOL k fuel t i nodes).1.getD idx 0 = nodes.getD idx 0) := by
  intro d
  induction d with
  | zero =>
    intro fuel t i nodes hfu heol _
    match fuel, hfu with
    | fuel + 1, _ =>
      have heol0 : mem (i + EOL - 1) = '\n' := by
        have : i + 0 * fltsz + EOL - 1 = i + EOL - 1 := by omega
        rwa [this] at heol
      simp only [nbDofLoop]
      rw [if_pos heol0]
      refine ⟨?_, ?_, rfl, fun s hs _ => absurd hs (Nat.not_lt_zero s), fun idx _ => rfl⟩
      · show t = t + 0
        omega
      · show i + EOL = i + 0 * fltsz + EOL
        omega
  | succ d ih =>
    intro fuel t i nodes hfu heol hno
    match fuel, hfu with
    | fuel + 1, hfu =>
      have hne : ¬ mem (i + EOL - 1) = '\n' := by
        have h0 : i + 0 * fltsz + EOL - 1 = i + EOL - 1 := by omega
        have := hno 0 (by omega)
        rwa [h0] at this
      have hcur : (nbField mem fltsz i).2 = i + fltsz := nbField_snd mem fltsz i hf
      have heol' : mem (i + fltsz + d * fltsz + EOL - 1) = '\n' := by
        have : i + (d + 1) * fltsz + EOL - 1 = i + fltsz + d * fltsz + EOL - 1 := by ring_nf
        rwa [this] at heol
      have hno' : ∀ s, s < d → mem (i + fltsz + s * fltsz + EOL - 1) ≠ '\n' := by
        intro s hs
        have : i + (s + 1) * fltsz + EOL - 1 = i + fltsz + s * fltsz + EOL - 1 := by ring_nf
        have h2 := hno (s + 1) (by omega)
        rwa [this] at h2
      have key := ih fuel (t + 1) (i + fltsz) (nodes.set (k * 6 + t) (nbField mem fltsz i).1)
        (by omega) heol' hno'
      simp only [nbDofLoop, if_neg hne, hcur]
      obtain ⟨k1, k2, k3, k4, k5⟩ := key
      refine ⟨by rw [k1]; omega, by rw [k2]; ring_nf, by rw [k3]; simp, ?_, ?_⟩
      · intro s hs hlen
        match s with
        | 0 =>
          have hidx : k * 6 + t + 0 < k * 6 + (t + 1) := by omega
          rw [k5 (k * 6 + t + 0) (Or.inl hidx)]
          have h0 : k * 6 + t + 0 = k * 6 + t := by omega
          rw [h0, getD_set_eq _ _ _ _ (by omega)]
          have h1 : i + 0 * fltsz = i := by omega
          rw [h1]
        | s + 1 =>
          have hidx : k * 6 + t + (s + 1) = k * 6 + (t + 1) + s := by omega
          rw [hidx, k4 s (by omega) (by simp; omega)]
          have h1 : i + fltsz + s * fltsz = i + (s + 1) * fltsz := by ring_nf
          rw [h1]
      · intro idx hidx
        have hidx' : idx < k * 6 + (t + 1) ∨ k * 6 + (t + 1) + d ≤ idx := by omega
        rw [k5 idx hidx', getD_set_ne _ (by omega) _ _]

theorem nbZeroFillLoop_spec (k : Nat) :
    ∀ (cnt j : Nat) (nodes : List ℚ),
      (nbZeroFillLoop k cnt j nodes).length = nodes.length ∧
      (∀ s, s < cnt → k * 6 + j + s < nodes.length →
        (nbZeroFillLoop k cnt j nodes).getD (k * 6 + j + s) 0 = 0) ∧
      (∀ idx, idx < k * 6 + j ∨ k * 6 + j + cnt ≤ idx →
        (nbZeroFillLoop k cnt j nodes).getD idx 0 = nodes.getD idx 0) := by
  intro cnt
  induction cnt with
  | zero =>
    intro j nodes
    exact ⟨rfl, fun s hs _ => absurd hs (Nat.not_lt_zero s), fun idx _ => rfl⟩
  | succ m ih =>
    intro j nodes
    obtain ⟨k1, k2, k3⟩ := ih (j + 1) (nodes.set (k * 6 + j) 0)
    simp only [nbZeroFillLoop]
    refine ⟨by rw [k1]; simp, ?_, ?_⟩
    · intro s hs hlen
      match s with
      | 0 =>
        have hidx : k * 6 + j + 0 < k * 6 + (j + 1) := by omega
        rw [k3 (k * 6 + j + 0) (Or.inl hidx)]
        have h0 : k * 6 + j + 0 = k * 6 + j := by omega
        rw [h0, getD_set_eq _ _ _ _ (by omega)]
      | s + 1 =>
        have hidx : k * 6 + j + (s + 1) = k * 6 + (j + 1) + s := by omega
        rw [hidx, k2 s (by omega) (by simp; omega)]
    · intro idx hidx
      have hidx' : idx < k * 6 + (j + 1) ∨ k * 6 + (j + 1) + m ≤ idx := by omega
      rw [k3 idx hidx', getD_set_ne _ (by omega) _ _]

/-- C7 (amended): for every NBLOCK record line carrying `d ≤ 6` DOF fields
followed by an end-of-line, the decoder parses exactly those `d` fields in
order into the first `d` of the record's 6 DOF slots, stops at the
end-of-line, zero-fills the remaining slots up to 6 and touches nothing
beyond them; the `for (t = 0; t < 7; ++t)` loop bound, however, is 7, so a
line carrying 7 fields with no end-of-line stores a 7th value outside the
record's 6 DOF slots (see the counterexample). -/
theorem c7_nblock_line (mem : Nat → Char) (intsz fltsz EOL n0 d : Nat) (nodes0 : List ℚ)
    (hf : 7 ≤ fltsz) (hd : d ≤ 6) (hlen : 6 ≤ nodes0.length)
    (heol : mem (n0 + 3 * intsz + d * fltsz + EOL - 1) = '\n')
    (hno : ∀ t, t < d → mem (n0 + 3 * intsz + t * fltsz + EOL - 1) ≠ '\n') :
    (∀ t, t < d → (read_nblock mem 1 intsz fltsz EOL n0 nodes0).nodes.getD t 0 =
      (nbField mem fltsz (n0 + 3 * intsz + t * fltsz)).1) ∧
    (∀ j, d ≤ j → j < 6 → (read_nblock mem 1 intsz fltsz EOL n0 nodes0).nodes.getD j 0 = 0) ∧
    (∀ idx, 6 ≤ idx → (read_nblock mem 1 intsz fltsz EOL n0 nodes0).nodes.getD idx 0 =
      nodes0.getD idx 0) ∧
    (read_nblock mem 1 intsz fltsz EOL n0 nodes0).nnum = [(fast_atoi2 mem intsz n0).1] ∧
    (read_nblock mem 1 intsz fltsz EOL n0 nodes0).pos =
      n0 + 3 * intsz + d * fltsz + EOL := by
  have hi2 : (fast_atoi2 mem intsz n0).2 + intsz * 2 = n0 + 3 * intsz := by
    rw [fast_atoi2_snd]
    omega
  have hstep : read_nblock mem 1 intsz fltsz EOL n0 nodes0 =
      ⟨[(fast_atoi2 mem intsz n0).1],
       nbZeroFill 0
         (nbDofLoop mem fltsz EOL 0 7 0 ((fast_atoi2 mem intsz n0).2 + intsz * 2) nodes0).2.2
         (nbDofLoop mem fltsz EOL 0 7 0 ((fast_atoi2 mem intsz n0).2 + intsz * 2) nodes0).1,
       (nbDofLoop mem fltsz EOL 0 7 0 ((fast_atoi2 mem intsz n0).2 + intsz * 2) nodes0).2.1⟩ :=
    rfl
  rw [hstep, hi2]
  obtain ⟨d1, d2, d3, d4, d5⟩ := nbDofLoop_spec mem fltsz EOL 0 hf d 7 0 (n0 + 3 * intsz)
    nodes0 (by omega) heol hno
  rw [d1, d2]
  simp only [Nat.zero_mul, Nat.zero_add] at d3 d4 d5 ⊢
  obtain ⟨z1, z2, z3⟩ := nbZeroFillLoop_spec 0 (6 - (0 + d)) (0 + d)
    (nbDofLoop mem fltsz EOL 0 7 0 (n0 + 3 * intsz) nodes0).1
  simp only [Nat.zero_mul, Nat.zero_add, nbZeroFill] at z1 z2 z3 ⊢
  refine ⟨?_, ?_, ?_, trivial, trivial⟩
  · intro t ht
    rw [z3 t (Or.inl (by omega))]
    have := d4 t ht (by omega)
    simpa using this
  · intro j hj1 hj2
    have hz := z2 (j - d) (by omega) (by rw [d3]; omega)
    have hjj : d + (j - d) = j := by omega
    rwa [hjj] at hz
  · intro idx hidx
    rw [z3 idx (Or.inr (by omega)), d5 idx (Or.inr (by omega))]

theorem c7_nblock_line_witness :
    (7 ≤ 7 ∧ 2 ≤ 6 ∧ 6 ≤ (List.replicate 12 (99 : ℚ)).length) ∧
    (strMem ("5  " ++ " 2.E+00" ++ "-3.E+01" ++ "\n").toList (0 + 3 * 1 + 2 * 7 + 1 - 1)
      = '\n') ∧
    (read_nblock (strMem ("5  " ++ " 2.E+00" ++ "-3.E+01" ++ "\n").toList) 1 1 7 1 0
      (List.replicate 12 99)).nodes.getD 2 0 = 0 ∧
    (read_nblock (strMem ("5  " ++ " 2.E+00" ++ "-3.E+01" ++ "\n").toList) 1 1 7 1 0
      (List.replicate 12 99)).nodes.getD 1 0 =
      (nbField (strMem ("5  " ++ " 2.E+00" ++ "-3.E+01" ++ "\n").toList) 7
        (0 + 3 * 1 + 1 * 7)).1 := by
  have hno : ∀ t, t < 2 → strMem ("5  " ++ " 2.E+00" ++ "-3.E+01" ++ "\n").toList
      (0 + 3 * 1 + t * 7 + 1 - 1) ≠ '\n' := by
    intro t ht
    interval_cases t <;> decide
  have h := c7_nblock_line (strMem ("5  " ++ " 2.E+00" ++ "-3.E+01" ++ "\n").toList)
    1 7 1 0 2 (List.replicate 12 99) (by omega) (by omega) (by simp) (by decide) hno
  exact ⟨⟨by omega, by omega, by simp⟩, by decide, h.2.1 2 (by omega) (by omega),
    h.1 1 (by omega)⟩

theorem nbDofLoop_noEol (mem : Nat → Char) (fltsz EOL k : Nat) (hf : 7 ≤ fltsz) :
    ∀ (fuel t i : Nat) (nodes : List ℚ),
      (∀ s, s < fuel → mem (i + s * fltsz + EOL - 1) ≠ '\n') →
      (nbDofLoop mem fltsz EOL k fuel t i nodes).2.2 = t + fuel ∧
      (nbDofLoop mem fltsz EOL k fuel t i nodes).2.1 = i + fuel * fltsz ∧
      (nbDofLoop mem fltsz EOL k fuel t i nodes).1.length = nodes.length ∧
      (∀ s, s < fuel → k * 6 + t + s < nodes.length →
        (nbDofLoop mem fltsz EOL k fuel t i nodes).1.getD (k * 6 + t + s) 0 =
          (nbField mem fltsz (i + s * fltsz)).1) ∧
      (∀ idx, idx < k * 6 + t ∨ k * 6 + t + fuel ≤ idx →
        (nbDofLoop mem fltsz EOL k fuel t i nodes).1.getD idx 0 = nodes.getD idx 0) := by
  intro fuel
  induction fuel with
  | zero =>
    intro t i nodes _
    refine ⟨?_, ?_, rfl, fun s hs _ => absurd hs (Nat.not_lt_zero s), fun idx _ => rfl⟩
    · show t = t + 0
      omega
    · show i = i + 0 * fltsz
      omega
  | succ fuel ih =>
    intro t i nodes hno
    have hne : ¬ mem (i + EOL - 1) = '\n' := by
      have h0 : i + 0 * fltsz + EOL - 1 = i + EOL - 1 := by omega
      have := hno 0 (by omega)
      rwa [h0] at this
    have hcur : (nbField mem fltsz i).2 = i + fltsz := nbField_snd mem fltsz i hf
    have hno' : ∀ s, s < fuel → mem (i + fltsz + s * fltsz + EOL - 1) ≠ '\n' := by
      intro s hs
      have : i + (s + 1) * fltsz + EOL - 1 = i + fltsz + s * fltsz + EOL - 1 := by ring_nf
      have h2 := hno (s + 1) (by omega)
      rwa [this] at h2
    have key := ih (t + 1) (i + fltsz) (nodes.set (k * 6 + t) (nbField mem fltsz i).1) hno'
    simp only [nbDofLoop, if_neg hne, hcur]
    obtain ⟨k1, k2, k3, k4, k5⟩ := key
    refine ⟨by rw [k1]; omega, by rw [k2]; ring_nf, by rw [k3]; simp, ?_, ?_⟩
    · intro s hs hlen
      match s with
      | 0 =>
        have hidx : k * 6 + t + 0 < k * 6 + (t + 1) := by omega
        rw [k5 (k * 6 + t + 0) (Or.inl hidx)]
        have h0 : k * 6 + t + 0 = k * 6 + t := by omega
        rw [h0, getD_set_eq _ _ _ _ (by omega)]
        have h1 : i + 0 * fltsz = i := by omega
        rw [h1]
      | s + 1 =>
        have hidx : k * 6 + t + (s + 1) = k * 6 + (t + 1) + s := by omega
        rw [hidx, k4 s (by omega) (by simp; omega)]
        have h1 : i + fltsz + s * fltsz = i + (s + 1) * fltsz := by ring_nf
        rw [h1]
    · intro idx hidx
      have hidx' : idx < k * 6 + (t + 1) ∨ k * 6 + (t + 1) + fuel ≤ idx := by omega
      rw [k5 idx hidx', getD_set_ne _ (by omega) _ _]

/-- C7 counterexample: a record line carrying seven un-terminated DOF
fields: the loop bound `t < 7` parses a 7th field and stores its value at
flat slot 6 — outside the current record's six DOF slots 0–5 (here the
caller buffer beyond the record, primed with 99, is overwritten with the
7th parsed value 2). -/
theorem c7_counterexample :
    (read_nblock (strMem "5   2.E+00 2.E+00 2.E+00 2.E+00 2.E+00 2.E+00 2.E+00".toList)
      1 1 7 1 0 (List.replicate 12 99)).nodes.getD 6 0 = 2 ∧
    (read_nblock (strMem "5   2.E+00 2.E+00 2.E+00 2.E+00 2.E+00 2.E+00 2.E+00".toList)
      1 1 7 1 0 (List.replicate 12 99)).nodes.getD 6 0 ≠ 99 := by
  have hstep : read_nblock (strMem "5   2.E+00 2.E+00 2.E+00 2.E+00 2.E+00 2.E+00 2.E+00".toList)
      1 1 7 1 0 (List.replicate 12 99) =
      ⟨[(fast_atoi2 (strMem "5   2.E+00 2.E+00 2.E+00 2.E+00 2.E+00 2.E+00 2.E+00".toList) 1 0).1],
       nbZeroFill 0 (nbDofLoop (strMem "5   2.E+00 2.E+00 2.E+00 2.E+00 2.E+00 2.E+00 2.E+00".toList) 7 1 0 7 0 3 (List.replicate 12 99)).2.2 (nbDofLoop (strMem "5   2.E+00 2.E+00 2.E+00 2.E+00 2.E+00 2.E+00 2.E+00".toList) 7 1 0 7 0 3 (List.replicate 12 99)).1,
       (nbDofLoop (strMem "5   2.E+00 2.E+00 2.E+00 2.E+00 2.E+00 2.E+00 2.E+00".toList) 7 1 0 7 0 3 (List.replicate 12 99)).2.1⟩ := rfl
  have hno : ∀ s, s < 7 →
      strMem "5   2.E+00 2.E+00 2.E+00 2.E+00 2.E+00 2.E+00 2.E+00".toList (3 + s * 7 + 1 - 1) ≠ '\n' := by
    intro s hs
    interval_cases s <;> decide
  obtain ⟨k1, k2, k3, k4, k5⟩ := nbDofLoop_noEol
    (strMem "5   2.E+00 2.E+00 2.E+00 2.E+00 2.E+00 2.E+00 2.E+00".toList) 7 1 0 (by omega) 7 0 3 (List.replicate 12 99) hno
  have hzf : ∀ nodes : List ℚ, nbZeroFill 0 (0 + 7) nodes = nodes := fun nodes => rfl
  have c45 : strMem "5   2.E+00 2.E+00 2.E+00 2.E+00 2.E+00 2.E+00 2.E+00".toList 45 = ' ' := by decide
  have c46 : strMem "5   2.E+00 2.E+00 2.E+00 2.E+00 2.E+00 2.E+00 2.E+00".toList 46 = '2' := by decide
  have c49 : strMem "5   2.E+00 2.E+00 2.E+00 2.E+00 2.E+00 2.E+00 2.E+00".toList 49 = '+' := by decide
  have c50 : strMem "5   2.E+00 2.E+00 2.E+00 2.E+00 2.E+00 2.E+00 2.E+00".toList 50 = '0' := by decide
  have c51 : strMem "5   2.E+00 2.E+00 2.E+00 2.E+00 2.E+00 2.E+00 2.E+00".toList 51 = '0' := by decide
  have hfr0 : ∀ (i : Nat) (pow acc : ℚ),
      nbFracLoop (strMem "5   2.E+00 2.E+00 2.E+00 2.E+00 2.E+00 2.E+00 2.E+00".toList) 0 i pow acc = (acc, i) := fun _ _ _ => rfl
  have t2 : ('2' : Char).toNat = 50 := rfl
  have t0 : ('0' : Char).toNat = 48 := rfl
  have ne1 : ¬(' ' = '-') := by decide
  have hval : (nbField (strMem "5   2.E+00 2.E+00 2.E+00 2.E+00 2.E+00 2.E+00 2.E+00".toList) 7 (3 + 6 * 7)).1 = 2 := by
    rw [show (3 + 6 * 7 : Nat) = 45 from rfl]
    have c45x : strMem "5   2.E+00 2.E+00 2.E+00 2.E+00 2.E+00 2.E+00 2.E+00".toList 45 = ' ' := by decide
    have c46x : strMem "5   2.E+00 2.E+00 2.E+00 2.E+00 2.E+00 2.E+00 2.E+00".toList (45 + 1) = '2' := by decide
    have c49x : strMem "5   2.E+00 2.E+00 2.E+00 2.E+00 2.E+00 2.E+00 2.E+00".toList (45 + 2 + 2) = '+' := by decide
    have c50x : strMem "5   2.E+00 2.E+00 2.E+00 2.E+00 2.E+00 2.E+00 2.E+00".toList (45 + 2 + 2 + 1) = '0' := by decide
    have c51x : strMem "5   2.E+00 2.E+00 2.E+00 2.E+00 2.E+00 2.E+00 2.E+00".toList (45 + 2 + 2 + 2) = '0' := by decide
    have hfr1 : (nbFracLoop (strMem "5   2.E+00 2.E+00 2.E+00 2.E+00 2.E+00 2.E+00 2.E+00".toList) (7 - 7) (45 + 2) (1 / 10) ((50 : ℚ) - 48)).1 =
        (50 : ℚ) - 48 := rfl
    have hfr2 : (nbFracLoop (strMem "5   2.E+00 2.E+00 2.E+00 2.E+00 2.E+00 2.E+00 2.E+00".toList) (7 - 7) (45 + 2) (1 / 10) ((50 : ℚ) - 48)).2 =
        45 + 2 := rfl
    simp only [nbField, c45x, c46x, c49x, c50x, c51x, t2, t0, Nat.cast_ofNat,
      hfr1, hfr2, Char.reduceEq, reduceIte]
    norm_num
  have h6 := k4 6 (by omega) (by simp)
  simp only [Nat.zero_add, Nat.zero_mul] at h6
  have hmain : (read_nblock (strMem "5   2.E+00 2.E+00 2.E+00 2.E+00 2.E+00 2.E+00 2.E+00".toList)
      1 1 7 1 0 (List.replicate 12 99)).nodes.getD 6 0 = 2 := by
    rw [hstep]
    show (nbZeroFill 0 (nbDofLoop (strMem "5   2.E+00 2.E+00 2.E+00 2.E+00 2.E+00 2.E+00 2.E+00".toList) 7 1 0 7 0 3 (List.replicate 12 99)).2.2 (nbDofLoop (strMem "5   2.E+00 2.E+00 2.E+00 2.E+00 2.E+00 2.E+00 2.E+00".toList) 7 1 0 7 0 3 (List.replicate 12 99)).1).getD 6 0 = 2
    rw [k1, hzf, h6, hval]
  exact ⟨hmain, by rw [hmain]; norm_num⟩

/-! Windowed-sparse decode: write helpers. -/

theorem writeRun_length : ∀ (vals vec : List Nat) (start : Nat),
    (writeRun vec start vals).length = vec.length := by
  intro vals
  induction vals with
  | nil => intro vec start; rfl
  | cons v rest ih =>
    intro vec start
    simp only [writeRun]
    rw [ih]
    simp

theorem writeRun_getD_out : ∀ (vals vec : List Nat) (start i : Nat),
    i < start ∨ start + vals.length ≤ i →
    (writeRun vec start vals).getD i 0 = vec.getD i 0 := by
  intro vals
  induction vals with
  | nil => intro vec start i _; rfl
  | cons v rest ih =>
    intro vec start i hi
    simp only [writeRun]
    rw [ih _ _ _ (by simp at hi; omega), getD_set_ne _ (by simp at hi; omega) _ _]

theorem writeRun_getD_in : ∀ (vals vec : List Nat) (start i : Nat),
    start ≤ i → i < start + vals.length → i < vec.length →
    (writeRun vec start vals).getD i 0 = vals.getD (i - start) 0 := by
  intro vals
  induction vals with
  | nil => intro vec start i h1 h2 _; simp at h2; omega
  | cons v rest ih =>
    intro vec start i h1 h2 h3
    simp only [writeRun]
    by_cases he : i = start
    · subst he
      rw [writeRun_getD_out _ _ _ _ (Or.inl (by omega)),
        getD_set_eq _ _ _ _ (by omega)]
      simp
    · have h4 : start + 1 ≤ i := by omega
      rw [ih _ _ _ h4 (by simp at h2 ⊢; omega) (by simp; omega)]
      have h5 : i - start = (i - (start + 1)) + 1 := by omega
      rw [h5, List.getD_cons_succ]

theorem writeConst_length : ∀ (k : Nat) (vec : List Nat) (start v : Nat),
    (writeConst vec start v k).length = vec.length := by
  intro k
  induction k with
  | zero => intro vec start v; rfl
  | succ m ih =>
    intro vec start v
    simp only [writeConst]
    rw [ih]
    simp

theorem writeConst_getD_out : ∀ (k : Nat) (vec : List Nat) (start v i : Nat),
    i < start ∨ start + k ≤ i →
    (writeConst vec start v k).getD i 0 = vec.getD i 0 := by
  intro k
  induction k with
  | zero => intro vec start v i _; rfl
  | succ m ih =>
    intro vec start v i hi
    simp only [writeConst]
    rw [ih _ _ _ _ (by omega), getD_set_ne _ (by omega) _ _]

theorem writeConst_getD_in : ∀ (k : Nat) (vec : List Nat) (start v i : Nat),
    start ≤ i → i < start + k → i < vec.length →
    (writeConst vec start v k).getD i 0 = v := by
  intro k
  induction k with
  | zero => intro vec start v i h1 h2 _; omega
  | succ m ih =>
    intro vec start v i h1 h2 h3
    simp only [writeConst]
    by_cases he : i = start
    · subst he
      rw [writeConst_getD_out _ _ _ _ _ (Or.inl (by omega)),
        getD_set_eq _ _ _ _ (by omega)]
    · rw [ih _ _ _ _ (by omega) (by omega) (by simp; omega)]

/-! Windowed-sparse decode: wire-format reading of encoded windows. -/

theorem wordToInt_negWord {n : Nat} (h : n < 2 ^ 31) :
    wordToInt (negWord n) = -(n : Int) := by
  unfold wordToInt negWord
  match n, h with
  | 0, _ => simp
  | m + 1, h =>
    have h1 : (2 ^ 32 - (m + 1)) % 2 ^ 32 = 2 ^ 32 - (m + 1) := by omega
    rw [h1, if_neg (by omega)]
    omega

theorem readDouble_shift (pre xs : List Nat) (k : Nat) :
    readDouble (pre ++ xs) (pre.length + k) = readDouble xs k := by
  unfold readDouble
  have h1 : pre.length + k + 1 = pre.length + (k + 1) := by omega
  rw [h1, getD_append_add, getD_append_add]

theorem readDouble_encDouble (v : Nat) (rest : List Nat) (hv : v < 2 ^ 64) :
    readDouble (encDouble v ++ rest) 0 = v := by
  unfold readDouble encDouble
  simp [List.getD_cons_zero, List.getD_cons_succ]
  omega

theorem length_flatMap_encDouble : ∀ (vals : List Nat),
    (vals.flatMap encDouble).length = 2 * vals.length := by
  intro vals
  induction vals with
  | nil => rfl
  | cons v rest ih =>
    simp only [List.flatMap_cons, List.length_append, ih, encDouble]
    simp
    omega

theorem readDouble_flatMap : ∀ (vals rest : List Nat) (j : Nat),
    j < vals.length → (∀ v ∈ vals, v < 2 ^ 64) →
    readDouble (vals.flatMap encDouble ++ rest) (2 * j) = vals.getD j 0 := by
  intro vals
  induction vals with
  | nil => intro rest j hj _; simp at hj
  | cons v vs ih =>
    intro rest j hj hv
    match j with
    | 0 =>
      simp only [List.flatMap_cons, List.append_assoc, List.getD_cons_zero, Nat.mul_zero]
      exact readDouble_encDouble v _ (hv v (by simp))
    | j + 1 =>
      have h2 : 2 * (j + 1) = (encDouble v).length + 2 * j := by
        simp [encDouble]
        omega
      simp only [List.flatMap_cons, List.append_assoc, h2, readDouble_shift,
        List.getD_cons_succ]
      exact ih _ j (by simp at hj; omega) (fun x hx => hv x (by simp [hx]))

theorem readDoubles_eq (ws : List Nat) (c : Nat) (vals : List Nat)
    (h : ∀ j, j < vals.length → readDouble ws (c + 2 * j) = vals.getD j 0) :
    readDoubles ws c vals.length = vals := by
  apply List.ext_getElem
  · simp [readDoubles]
  · intro j h1 h2
    have hj : j < vals.length := h2
    simp only [readDoubles, List.getElem_map, List.getElem_range]
    rw [h j hj, List.getD_eq_getElem _ 0 hj]

theorem getD_append_self {α : Type} (pre xs : List α) (d : α) :
    (pre ++ xs).getD pre.length d = xs.getD 0 d := by
  have h := getD_append_add pre xs 0 d
  simpa using h

theorem wsLoopDouble_step_isolated (ws : List Nat) (fuel : Nat) (pre tail : List Nat)
    (loc v : Nat) (vec : List Nat)
    (hws : ws = pre ++ (loc :: (encDouble v ++ tail)))
    (hl : 0 < loc) (hl2 : loc < 2 ^ 31) (hv : v < 2 ^ 64) :
    wsLoopDouble ws (fuel + 1) pre.length vec =
      wsLoopDouble ws fuel (pre.length + 3) (vec.set loc v) := by
  have hloc : ws.getD pre.length 0 = loc := by
    rw [hws, getD_append_self]
    rfl
  have hword : wordToInt (ws.getD pre.length 0) = (loc : Int) := by
    rw [hloc, wordToInt_small hl2]
  have hrd : readDouble ws (pre.length + 1) = v := by
    have hre : ws = (pre ++ [loc]) ++ (encDouble v ++ tail) := by
      rw [hws]
      simp
    have hlen : pre.length + 1 = (pre ++ [loc]).length + 0 := by simp
    rw [hre, hlen, readDouble_shift]
    exact readDouble_encDouble v tail hv
  simp only [wsLoopDouble, hword]
  rw [if_pos (by exact_mod_cast hl), hrd]
  simp

theorem wsLoopDouble_step_run (ws : List Nat) (fuel : Nat) (pre tail : List Nat)
    (start : Nat) (vals : List Nat) (vec : List Nat)
    (hws : ws = pre ++ (negWord start :: vals.length :: (vals.flatMap encDouble ++ tail)))
    (hstart : start < 2 ^ 31) (h0 : vals ≠ []) (hlen : vals.length < 2 ^ 31)
    (hv : ∀ v ∈ vals, v < 2 ^ 64) :
    wsLoopDouble ws (fuel + 1) pre.length vec =
      wsLoopDouble ws fuel (pre.length + 2 + 2 * vals.length) (writeRun vec start vals) := by
  have hloc : ws.getD pre.length 0 = negWord start := by
    rw [hws, getD_append_self]
    rfl
  have hword : wordToInt (ws.getD pre.length 0) = -(start : Int) := by
    rw [hloc, wordToInt_negWord hstart]
  have hlen1 : ws.getD (pre.length + 1) 0 = vals.length := by
    rw [hws, getD_append_add]
    rfl
  have hword2 : wordToInt (ws.getD (pre.length + 1) 0) = (vals.length : Int) := by
    rw [hlen1, wordToInt_small hlen]
  have hpos : 0 < (vals.length : Int) := by
    have : 0 < vals.length := List.length_pos.mpr h0
    exact_mod_cast this
  have hrds : readDoubles ws (pre.length + 2) vals.length = vals := by
    apply readDoubles_eq
    intro j hj
    have hre : ws = (pre ++ [negWord start, vals.length]) ++ (vals.flatMap encDouble ++ tail) := by
      rw [hws]
      simp
    have hlen2 : pre.length + 2 + 2 * j = (pre ++ [negWord start, vals.length]).length + 2 * j := by
      simp
    rw [hre, hlen2, readDouble_shift]
    exact readDouble_flatMap vals tail j hj hv
  simp only [wsLoopDouble, hword, hword2]
  rw [if_neg (by omega), if_pos hpos]
  have h1 : (-(-(start : Int))).toNat = start := by simp
  have h2 : ((vals.length : Int)).toNat = vals.length := by simp
  rw [h1, h2, hrds]

theorem wsLoopDouble_step_const (ws : List Nat) (fuel : Nat) (pre tail : List Nat)
    (start len v : Nat) (vec : List Nat)
    (hws : ws = pre ++ (negWord start :: negWord len :: (encDouble v ++ tail)))
    (hstart : start < 2 ^ 31) (h0 : 0 < len) (hlen : len < 2 ^ 31) (hv : v < 2 ^ 64) :
    wsLoopDouble ws (fuel + 1) pre.length vec =
      wsLoopDouble ws fuel (pre.length + 4) (writeConst vec start v len) := by
  have hloc : ws.getD pre.length 0 = negWord start := by
    rw [hws, getD_append_self]
    rfl
  have hword : wordToInt (ws.getD pre.length 0) = -(start : Int) := by
    rw [hloc, wordToInt_negWord hstart]
  have hlen1 : ws.getD (pre.length + 1) 0 = negWord len := by
    rw [hws, getD_append_add]
    rfl
  have hword2 : wordToInt (ws.getD (pre.length + 1) 0) = -(len : Int) := by
    rw [hlen1, wordToInt_negWord hlen]
  have hrd : readDouble ws (pre.length + 2) = v := by
    have hre : ws = (pre ++ [negWord start, negWord len]) ++ (encDouble v ++ tail) := by
      rw [hws]
      simp
    have hlen2 : pre.length + 2 = (pre ++ [negWord start, negWord len]).length + 0 := by simp
    rw [hre, hlen2, readDouble_shift]
    exact readDouble_encDouble v tail hv
  simp only [wsLoopDouble, hword, hword2]
  rw [if_neg (by omega), if_neg (by omega), hrd]
  have h1 : (-(-(start : Int))).toNat = start := by simp
  have h2 : max (-(-(len : Int))).toNat 1 = len := by
    simp
    omega
  rw [h1, h2]

theorem wsLoopDouble_enc (s : Nat) (hs : s < 2 ^ 31) :
    ∀ (l : List Window) (pre rest vec : List Nat), (∀ w ∈ l, winWF s w) →
      wsLoopDouble (pre ++ (l.flatMap encWindow ++ rest)) l.length pre.length vec =
        (l.foldl applyWindow vec, (pre ++ l.flatMap encWindow).length) := by
  intro l
  induction l with
  | nil =>
    intro pre rest vec _
    simp [wsLoopDouble]
  | cons w l ih =>
    intro pre rest vec hwf
    have hW : pre ++ ((w :: l).flatMap encWindow ++ rest) =
        pre ++ (encWindow w ++ (l.flatMap encWindow ++ rest)) := by
      simp [List.flatMap_cons, List.append_assoc]
    have hW2 : pre ++ (encWindow w ++ (l.flatMap encWindow ++ rest)) =
        (pre ++ encWindow w) ++ (l.flatMap encWindow ++ rest) := by
      simp [List.append_assoc]
    have hcursor2 : (pre ++ (w :: l).flatMap encWindow).length =
        ((pre ++ encWindow w) ++ l.flatMap encWindow).length := by
      simp [List.flatMap_cons, List.append_assoc]
    have hwf2 : ∀ u ∈ l, winWF s u := fun u hu => hwf u (by simp [hu])
    have hww := hwf w (by simp)
    rw [hW, hcursor2, List.length_cons, List.foldl_cons]
    cases w with
    | isolated loc v =>
      obtain ⟨h1, h2, h3⟩ := hww
      rw [wsLoopDouble_step_isolated _ l.length pre (l.flatMap encWindow ++ rest) loc v vec
        (by simp [encWindow, List.append_assoc]) h1 (by omega) h3]
      have hlen : pre.length + 3 = (pre ++ encWindow (Window.isolated loc v)).length := by
        simp [encWindow, encDouble]
      rw [hlen, hW2]
      exact ih (pre ++ encWindow (Window.isolated loc v)) rest _ hwf2
    | run start vals =>
      obtain ⟨h1, h2, h3⟩ := hww
      have hstart : start < 2 ^ 31 := by
        have : 0 < vals.length := List.length_pos.mpr h1
        omega
      have hvlen : vals.length < 2 ^ 31 := by omega
      rw [wsLoopDouble_step_run _ l.length pre (l.flatMap encWindow ++ rest) start vals vec
        (by simp [encWindow, List.append_assoc]) hstart h1 hvlen h3]
      have henc : (encWindow (Window.run start vals)).length = 2 + 2 * vals.length := by
        simp only [encWindow, List.length_cons, length_flatMap_encDouble]
        omega
      have hlen : pre.length + 2 + 2 * vals.length =
          (pre ++ encWindow (Window.run start vals)).length := by
        rw [List.length_append, henc]
        omega
      rw [hlen, hW2]
      exact ih (pre ++ encWindow (Window.run start vals)) rest _ hwf2
    | constRun start len v =>
      obtain ⟨h1, h2, h3⟩ := hww
      have hstart : start < 2 ^ 31 := by omega
      have hlen31 : len < 2 ^ 31 := by omega
      rw [wsLoopDouble_step_const _ l.length pre (l.flatMap encWindow ++ rest) start len v vec
        (by simp [encWindow, List.append_assoc]) hstart h1 hlen31 h3]
      have hlen : pre.length + 4 = (pre ++ encWindow (Window.constRun start len v)).length := by
        simp [encWindow, encDouble]
      rw [hlen, hW2]
      exact ih (pre ++ encWindow (Window.constRun start len v)) rest _ hwf2

theorem applyWindow_length (vec : List Nat) (w : Window) :
    (applyWindow vec w).length = vec.length := by
  cases w <;> simp [applyWindow, writeRun_length, writeConst_length]

theorem foldl_applyWindow_length : ∀ (l : List Window) (vec : List Nat),
    (l.foldl applyWindow vec).length = vec.length := by
  intro l
  induction l with
  | nil => intro vec; rfl
  | cons w l ih =>
    intro vec
    rw [List.foldl_cons, ih, applyWindow_length]

theorem applyWindow_getD_nc (vec : List Nat) (w : Window) (i : Nat) (h : ¬ covers w i) :
    (applyWindow vec w).getD i 0 = vec.getD i 0 := by
  cases w with
  | isolated loc v =>
    simp only [covers] at h
    exact getD_set_ne _ (fun he => h (by omega)) _ _
  | run start vals =>
    simp only [covers, not_and, not_lt] at h
    refine writeRun_getD_out _ _ _ _ ?_
    by_cases h1 : start ≤ i
    · exact Or.inr (h h1)
    · exact Or.inl (by omega)
  | constRun start len v =>
    simp only [covers, not_and, not_lt] at h
    refine writeConst_getD_out _ _ _ _ _ ?_
    by_cases h1 : start ≤ i
    · exact Or.inr (h h1)
    · exact Or.inl (by omega)

theorem foldl_applyWindow_nc : ∀ (l : List Window) (vec : List Nat) (i : Nat),
    (∀ w ∈ l, ¬ covers w i) →
    (l.foldl applyWindow vec).getD i 0 = vec.getD i 0 := by
  intro l
  induction l with
  | nil => intro vec i _; rfl
  | cons w l ih =>
    intro vec i h
    rw [List.foldl_cons, ih _ _ (fun u hu => h u (by simp [hu])),
      applyWindow_getD_nc _ _ _ (h w (by simp))]

theorem applyWindow_getD_covers (s : Nat) (vec : List Nat) (w : Window) (i : Nat)
    (hwf : winWF s w) (hc : covers w i) (hlen : vec.length = s) :
    (applyWindow vec w).getD i 0 = winValueAt w i := by
  cases w with
  | isolated loc v =>
    obtain ⟨h1, h2, _⟩ := hwf
    simp only [covers] at hc
    subst hc
    exact getD_set_eq _ _ _ _ (by omega)
  | run start vals =>
    obtain ⟨h1, h2, _⟩ := hwf
    simp only [covers] at hc
    exact writeRun_getD_in _ _ _ _ hc.1 hc.2 (by omega)
  | constRun start len v =>
    obtain ⟨h1, h2, _⟩ := hwf
    simp only [covers] at hc
    exact writeConst_getD_in _ _ _ _ _ hc.1 hc.2 (by omega)

theorem foldl_applyWindow_covers (s : Nat) : ∀ (l : List Window) (vec : List Nat)
    (w : Window) (i : Nat), l.Pairwise winDisjoint → (∀ u ∈ l, winWF s u) →
    vec.length = s → w ∈ l → covers w i →
    (l.foldl applyWindow vec).getD i 0 = winValueAt w i := by
  intro l
  induction l with
  | nil => intro vec w i _ _ _ hw _; simp at hw
  | cons u l ih =>
    intro vec w i hdis hwf hlen hw hc
    rw [List.pairwise_cons] at hdis
    rcases List.mem_cons.mp hw with rfl | hw2
    · rw [List.foldl_cons, foldl_applyWindow_nc _ _ _
        (fun x hx hcx => hdis.1 x hx i ⟨hc, hcx⟩)]
      · exact applyWindow_getD_covers s vec w i (hwf w (by simp)) hc hlen
    · rw [List.foldl_cons]
      exact ih _ w i hdis.2 (fun x hx => hwf x (by simp [hx]))
        (by rw [applyWindow_length]; exact hlen) hw2 hc

/-- C1: decoding an encoded float64 windowed-sparse record whose windows
are non-overlapping and in-bounds yields a vector of the declared length
`size` in which every position not covered by any window is zero, an
isolated window writes exactly its one value at its index, a run window
writes exactly its raw values in order from its start, and a constant-run
window writes its one value repeated its declared length of times; in
particular the Scenario B payload (`size=5`, constant run of three 2.5
values from index 0, isolated 9.0 at index 4, as raw 64-bit patterns)
decodes to `[2.5, 2.5, 2.5, 0, 9.0]`. -/
theorem c1_windowed_decode (s : Nat) (l : List Window)
    (hs : s < 2 ^ 31) (hnw : l.length < 2 ^ 31)
    (hwf : ∀ w ∈ l, winWF s w) (hdis : l.Pairwise winDisjoint) :
    (ReadWindowedSparseBufferDouble (encPayload s l)).2.1 = (s : Int) ∧
    (ReadWindowedSparseBufferDouble (encPayload s l)).1.length = s ∧
    (∀ i, i < s → (∀ w ∈ l, ¬ covers w i) →
      (ReadWindowedSparseBufferDouble (encPayload s l)).1.getD i 0 = 0) ∧
    (∀ w ∈ l, ∀ i, covers w i →
      (ReadWindowedSparseBufferDouble (encPayload s l)).1.getD i 0 = winValueAt w i) ∧
    (ReadWindowedSparseBufferDouble
      [5, 2, 0, 4294967293, 0, 1074003968, 4, 0, 1075838976]).1 =
      [4612811918334230528, 4612811918334230528, 4612811918334230528, 0,
       4620693217682128896] := by
  have hkey : (ReadWindowedSparseBufferDouble (encPayload s l)).1 =
      l.foldl applyWindow (List.replicate s 0) ∧
      (ReadWindowedSparseBufferDouble (encPayload s l)).2.1 = (s : Int) := by
    unfold ReadWindowedSparseBufferDouble
    have h0 : (encPayload s l).getD 0 0 = s := rfl
    have h1 : (encPayload s l).getD 1 0 = l.length := rfl
    rw [h0, h1, wordToInt_small hs, wordToInt_small hnw]
    by_cases hl : 0 < (l.length : Int)
    · rw [if_pos hl]
      have hW : encPayload s l = [s, l.length] ++ (l.flatMap encWindow ++ []) := by
        simp [encPayload]
      have hloop := wsLoopDouble_enc s hs l [s, l.length] [] (List.replicate s 0) hwf
      have h2 : ([s, l.length] : List Nat).length = 2 := rfl
      rw [h2] at hloop
      have htn : ((l.length : Int)).toNat = l.length := by simp
      rw [htn]
      have hsn : ((s : Int)).toNat = s := by simp
      rw [hsn]
      rw [hW, hloop]
      exact ⟨rfl, rfl⟩
    · rw [if_neg hl]
      have hnil : l = [] := by
        have : l.length = 0 := by omega
        exact List.length_eq_zero.mp this
      subst hnil
      have hsn : ((s : Int)).toNat = s := by simp
      rw [hsn]
      simp
  refine ⟨hkey.2, ?_, ?_, ?_, by decide⟩
  · rw [hkey.1, foldl_applyWindow_length]
    simp
  · intro i hi hnc
    rw [hkey.1, foldl_applyWindow_nc l _ i hnc]
    exact getD_replicate_lt s i 0 0 hi
  · intro w hw i hc
    rw [hkey.1]
    exact foldl_applyWindow_covers s l _ w i hdis hwf (by simp) hw hc

theorem c1_windowed_decode_witness :
    (∀ w ∈ [Window.constRun 0 3 4612811918334230528,
        Window.isolated 4 4620693217682128896], winWF 5 w) ∧
    (ReadWindowedSparseBufferDouble (encPayload 5
        [Window.constRun 0 3 4612811918334230528,
         Window.isolated 4 4620693217682128896])).1.getD 4 0 =
      winValueAt (Window.isolated 4 4620693217682128896) 4 := by
  have hwf : ∀ w ∈ [Window.constRun 0 3 4612811918334230528,
      Window.isolated 4 4620693217682128896], winWF 5 w := by
    intro w hw
    rcases List.mem_cons.mp hw with rfl | hw2
    · exact ⟨by omega, by omega, by norm_num⟩
    · rcases List.mem_singleton.mp hw2 with rfl
      exact ⟨by omega, by omega, by norm_num⟩
  have hdis : List.Pairwise winDisjoint [Window.constRun 0 3 4612811918334230528,
      Window.isolated 4 4620693217682128896] := by
    refine List.Pairwise.cons ?_ (List.pairwise_singleton _ _)
    intro w hw
    rcases List.mem_singleton.mp hw with rfl
    intro i hi
    simp only [covers] at hi
    omega
  exact ⟨hwf, (c1_windowed_decode 5 _ (by omega) (by norm_num) hwf hdis).2.2.2.1 _
    (by simp) 4 rfl⟩
